import Mathlib

/-!
# Quick Read (`Document-search-with-OCR-main/app.js`): search, navigation, highlighting

A shallow embedding of the search effect, `nextMatch` / `prevMatch`, `resetViewer`,
`highlightText`, `parsePPT` and `handleFileUpload` of `app.js`, together with the ECMAScript
built-ins they call (`new RegExp`, `String.prototype.matchAll`, `String.prototype.split`,
`String.prototype.trim`, `String.prototype.toLowerCase`, `%`).

Conventions.
* A JavaScript string is the list of its UTF-16 code units (`Str`), so offsets are list
  positions; `utf16` encodes a literal, a character outside the Basic Multilingual Plane
  as its surrogate pair.
* A JavaScript exception is the `error` side of `Except JSError`.
* The platform (`Platform`: the regular-expression constructor and
  `String.prototype.toLowerCase` outside ASCII) is a parameter of the application
  functions. `fragmentEngine T` is a concrete platform for the patterns built from
  ordinary code units, `.` and capturing groups, over the Unicode case tables `T`, which
  are themselves a parameter (`CaseTable`).
-/

namespace QuickRead

/-- A JavaScript string: its UTF-16 code units. -/
abbrev Str := List Nat

/-- The UTF-16 code units of a character. -/
def utf16Char (c : Char) : List Nat :=
  if c.toNat < 0x10000 then [c.toNat]
  else [0xD800 + (c.toNat - 0x10000) / 0x400, 0xDC00 + (c.toNat - 0x10000) % 0x400]

/-- The JavaScript string a literal denotes. -/
def utf16 (s : String) : Str := (s.toList.map utf16Char).flatten

/-- The exceptions the modelled code can raise. `unsupportedPattern` is not an ECMAScript
error: `fragmentEngine` returns it for a pattern that uses syntax it does not embed. -/
inductive JSError
  | syntaxError
  | typeError
  | decodeError
  | unsupportedPattern
  deriving DecidableEq

/-! ## Regular expressions -/

/-- What the compiled pattern reports when it matches at a position: the number of code
units consumed (`endIndex - index`) and the captures of groups `1..n`, `none` standing
for `undefined` (a group that did not take part in the match). -/
structure MatchState where
  len : Nat
  captures : List (Option Str)
  deriving DecidableEq

/-- A compiled pattern (the `[[RegExpMatcher]]` slot): subject and position to an
optional match starting exactly at that position. -/
abbrev Matcher := Str → Nat → Option MatchState

/-- The built-ins whose tables are outside the repository: `compile` is
`new RegExp(pattern, "gi")` (a `SyntaxError` or a matcher), `lowerCase` is
`String.prototype.toLowerCase` on the strings that have a code unit outside ASCII. -/
structure Platform where
  compile : Str → Except JSError Matcher
  lowerCase : Str → Str

/-- `S.substring(p, q)` for `p ≤ q`. -/
def substring (S : Str) (p q : Nat) : Str :=
  (S.drop p).take (q - p)

/-- The search loop of `RegExpBuiltinExec` for a global, non-sticky expression: the
matcher is tried at `lastIndex`, `lastIndex + 1`, ... ; `n` is the number of positions
left to try. -/
def execLoop (m : Matcher) (S : Str) : Nat → Nat → Option (Nat × MatchState)
  | 0, _ => none
  | n + 1, lastIndex =>
    match m S lastIndex with
    | some r => some (lastIndex, r)
    | none => execLoop m S n (lastIndex + 1)

/-- `RegExpBuiltinExec(R, S)` with `R.lastIndex = lastIndex`: positions
`lastIndex .. S.length` are tried in order; past `S.length` the result is `null`. -/
def RegExpBuiltinExec (m : Matcher) (S : Str) (lastIndex : Nat) : Option (Nat × MatchState) :=
  execLoop m S (S.length + 1 - lastIndex) lastIndex

/-- One element of the iterator of `S.matchAll(regex)`: `m.index` and `m[0]`. -/
structure MatchRecord where
  index : Nat
  matched : Str
  deriving DecidableEq

/-- The iteration of `%RegExpStringIterator%.next` on a global expression: execute from
`lastIndex`; stop on `null`; after an empty match `lastIndex` is advanced by one. The
first argument bounds the number of iterations. -/
def matchAllLoop (m : Matcher) (S : Str) : Nat → Nat → List MatchRecord
  | 0, _ => []
  | fuel + 1, lastIndex =>
    match RegExpBuiltinExec m S lastIndex with
    | none => []
    | some (i, r) =>
      let e := i + r.len
      let matched := substring S i e
      let thisIndex := if matched = [] then e + 1 else e
      ⟨i, matched⟩ :: matchAllLoop m S fuel thisIndex

/-- The array `[...S.matchAll(regex)]`. Every iteration moves `lastIndex` forward and the
loop stops once it passes `S.length`, so `S.length + 1` iterations are enough
(`matchAllLoop_fuel`). -/
def matchAll (m : Matcher) (S : Str) : List MatchRecord :=
  matchAllLoop m S (S.length + 1) 0

/-- The loop of `RegExp.prototype[Symbol.split]` for a non-empty subject: `p` is the end
of the last separator, `q` the position at which the (sticky) matcher is tried. -/
def splitLoop (m : Matcher) (S : Str) : Nat → Nat → Nat → List (Option Str)
  | 0, p, _ => [some (substring S p S.length)]
  | fuel + 1, p, q =>
    if q < S.length then
      match m S q with
      | none => splitLoop m S fuel p (q + 1)
      | some r =>
        let e := min (q + r.len) S.length
        if e = p then splitLoop m S fuel p (q + 1)
        else some (substring S p q) :: (r.captures ++ splitLoop m S fuel e e)
    else [some (substring S p S.length)]

/-- The array `S.split(regex)`: the pieces between separators, each separator followed
by its captures. Every iteration moves `q` forward or closes a pending piece, so
`2 * S.length + 1` iterations are enough (`splitLoop_fuel`). -/
def split (m : Matcher) (S : Str) : List (Option Str) :=
  if S.length = 0 then
    match m S 0 with
    | some _ => []
    | none => [some S]
  else splitLoop m S (2 * S.length + 1) 0 0

/-! ### A concrete engine for a fragment of the pattern syntax -/

/-- Tokens of the embedded pattern fragment. -/
inductive Tok
  | chr (c : Nat)
  | dot
  | lparen
  | rparen
  deriving DecidableEq

/-- The syntax characters of ECMAScript patterns other than `.`, `(` and `)`. -/
def unsupportedChars : List Nat :=
  utf16 "^$\\*+?[]{}|"

/-- Reads one pattern character. -/
def tokenOf (c : Nat) : Except JSError Tok :=
  if c = '('.toNat then .ok .lparen
  else if c = ')'.toNat then .ok .rparen
  else if c = '.'.toNat then .ok .dot
  else if c ∈ unsupportedChars then .error .unsupportedPattern
  else .ok (.chr c)

/-- Reads a pattern. -/
def tokenize : Str → Except JSError (List Tok)
  | [] => .ok []
  | c :: cs =>
    match tokenOf c with
    | .error e => .error e
    | .ok t =>
      match tokenize cs with
      | .error e => .error e
      | .ok ts => .ok (t :: ts)

/-- Parentheses are balanced (`depth` groups are open at the start). -/
def balanced : List Tok → Nat → Bool
  | [], depth => depth == 0
  | .lparen :: ts, depth => balanced ts (depth + 1)
  | .rparen :: _, 0 => false
  | .rparen :: ts, depth + 1 => balanced ts depth
  | _ :: ts, depth => balanced ts depth

/-- The upper-case form of an ASCII code unit. -/
def asciiUpper (ch : Nat) : Nat :=
  if 97 ≤ ch ∧ ch ≤ 122 then ch - 32 else ch

/-- The lower-case form of an ASCII code unit. -/
def asciiLower (ch : Nat) : Nat :=
  if 65 ≤ ch ∧ ch ≤ 90 then ch + 32 else ch

/-- `Canonicalize(ch)` under the `i` flag without `u`. `upper ch` is the Unicode upper-case
mapping of `ch` when that mapping is a single code unit, and `ch` itself otherwise; it is
consulted outside ASCII only, and a code unit outside ASCII is never canonicalized to an
ASCII one. -/
def canonicalize (upper : Nat → Nat) (ch : Nat) : Nat :=
  if ch < 128 then asciiUpper ch
  else
    let cu := upper ch
    if cu < 128 then ch else cu

/-- Line terminators, which `.` does not match. -/
def isLineTerminator (c : Nat) : Bool :=
  c = 0xA || c = 0xD || c = 0x2028 || c = 0x2029

/-- The consuming tokens of a pattern, in order. -/
def consuming : List Tok → List Tok
  | [] => []
  | .lparen :: ts => consuming ts
  | .rparen :: ts => consuming ts
  | t :: ts => t :: consuming ts

/-- One consuming token against one code unit. -/
def tokMatches (upper : Nat → Nat) : Tok → Nat → Bool
  | .chr c, d => canonicalize upper c == canonicalize upper d
  | .dot, d => !isLineTerminator d
  | _, _ => false

/-- The consuming tokens match a prefix of the input. -/
def seqMatches (upper : Nat → Nat) : List Tok → Str → Bool
  | [], _ => true
  | _ :: _, [] => false
  | t :: ts, d :: ds => tokMatches upper t d && seqMatches upper ts ds

/-- Number of code units consumed from a position inside a group up to the parenthesis
closing it (`depth` inner groups are open). -/
def groupLen : List Tok → Nat → Nat
  | [], _ => 0
  | .rparen :: _, 0 => 0
  | .rparen :: ts, depth + 1 => groupLen ts depth
  | .lparen :: ts, depth => groupLen ts (depth + 1)
  | _ :: ts, depth => groupLen ts depth + 1

/-- The span (start, end), relative to the start of the match, of every capturing group,
in the order of the opening parentheses; `pos` code units are consumed before the list. -/
def captureSpans : List Tok → Nat → List (Nat × Nat)
  | [], _ => []
  | .lparen :: ts, pos => (pos, pos + groupLen ts 0) :: captureSpans ts pos
  | .rparen :: ts, pos => captureSpans ts pos
  | _ :: ts, pos => captureSpans ts (pos + 1)

/-- The matcher of a token list: the fragment has neither alternatives nor quantifiers,
so a match at a position consumes exactly one code unit per consuming token and every
group takes part in it. -/
def fragmentMatcher (upper : Nat → Nat) (ts : List Tok) : Matcher := fun S i =>
  let w := S.drop i
  if i ≤ S.length ∧ seqMatches upper (consuming ts) w = true then
    some ⟨(consuming ts).length,
      (captureSpans ts 0).map (fun sp => some (substring w sp.1 sp.2))⟩
  else none

/-- `new RegExp(pattern, "gi")` on the fragment: ordinary code units, `.`, `(` and `)`.
Unbalanced parentheses are a `SyntaxError`. -/
def fragmentCompile (upper : Nat → Nat) (pattern : Str) : Except JSError Matcher :=
  match tokenize pattern with
  | .error e => .error e
  | .ok ts =>
    if balanced ts 0 then .ok (fragmentMatcher upper ts) else .error .syntaxError

/-- The Unicode case tables: `upper` as in `canonicalize`, `lowerCase` as in `Platform`. -/
structure CaseTable where
  upper : Nat → Nat
  lowerCase : Str → Str

/-- The concrete platform over the case tables `T`. -/
def fragmentEngine (T : CaseTable) : Platform := ⟨fragmentCompile T.upper, T.lowerCase⟩

/-- An excerpt of the Unicode case tables, for the worked examples: U+00E9 has the upper
case U+00C9 and U+017F the upper case `S`; U+00C9 has the lower case U+00E9 and U+212A
KELVIN SIGN the lower case `k`; every other code unit outside ASCII is left as it is. It
agrees with Unicode on every code unit of the examples that use it. -/
def unicodeExcerpt : CaseTable where
  upper := fun ch => if ch = 0xE9 then 0xC9 else if ch = 0x17F then 0x53 else ch
  lowerCase := fun s => s.map fun c =>
    if c < 128 then asciiLower c
    else if c = 0x212A then 0x6B
    else if c = 0xC9 then 0xE9
    else c

/-! ## String built-ins -/

/-- `String.prototype.toLowerCase`: on an ASCII string the letters `A`-`Z` are mapped, any
other string is handed to the platform. -/
def toLowerCase (P : Platform) (s : Str) : Str :=
  if s.all (fun c => decide (c < 128)) = true then s.map asciiLower else P.lowerCase s

/-- The code points of `WhiteSpace` and `LineTerminator`, which `trim` removes. -/
def whiteSpaceCodes : List Nat :=
  [0x9, 0xA, 0xB, 0xC, 0xD, 0x20, 0xA0, 0x1680, 0x2000, 0x2001, 0x2002, 0x2003, 0x2004,
   0x2005, 0x2006, 0x2007, 0x2008, 0x2009, 0x200A, 0x2028, 0x2029, 0x202F, 0x205F, 0x3000,
   0xFEFF]

/-- A code unit that `trim` removes. -/
def isWhiteSpace (c : Nat) : Bool := decide (c ∈ whiteSpaceCodes)

/-- `String.prototype.trim`. -/
def trim (s : Str) : Str :=
  ((s.dropWhile isWhiteSpace).reverse.dropWhile isWhiteSpace).reverse

/-- `xs.join(sep)`. -/
def join (sep : Str) : List Str → Str
  | [] => []
  | [x] => x
  | x :: y :: rest => x ++ sep ++ join sep (y :: rest)

/-- `name.split(".")`: the pieces between the dots (never an empty array). -/
def splitDot : Str → List Str
  | [] => [[]]
  | c :: cs =>
    if c = '.'.toNat then [] :: splitDot cs
    else
      match splitDot cs with
      | [] => [[c]]
      | p :: ps => (c :: p) :: ps

/-! ## Application state -/

/-- An `ArrayBuffer`: the bytes of a file. -/
abbrev ArrayBuffer := List Nat

/-- An entry of `files`: `{ name, content }`. -/
structure FileEntry where
  name : Str
  content : Str
  deriving DecidableEq

/-- The state of `QuickReadApp` that search, navigation and upload read and write,
and the `recentUploads` item of `localStorage`. `matchList` is the state variable
`matches` (a reserved word here). -/
structure AppState where
  files : List FileEntry
  selectedFile : Option FileEntry
  fileText : Str
  searchQuery : Str
  matchList : List Nat
  matchIndex : Int
  recentUploads : Option (List FileEntry)
  deriving DecidableEq

/-- The state after mount: `saved` is what `localStorage` held under `recentUploads`. -/
def initialState (saved : Option (List FileEntry)) : AppState :=
  { files := saved.getD [], selectedFile := none, fileText := [], searchQuery := [],
    matchList := [], matchIndex := 0, recentUploads := saved }

/-! ## Search -/

/-- The array `[...fileText.matchAll(regex)]` of the search effect, before the indices are
projected; `[]` when `searchQuery` is the empty string (`!searchQuery`). -/
def searchMatches (P : Platform) (fileText searchQuery : Str) :
    Except JSError (List MatchRecord) :=
  if searchQuery = [] then .ok []
  else
    match P.compile searchQuery with
    | .error e => .error e
    | .ok regex => .ok (matchAll regex fileText)

/-- The body of the search effect (`useEffect(..., [searchQuery, fileText])`). -/
def searchEffect (P : Platform) (s : AppState) : Except JSError AppState :=
  if s.searchQuery = [] then
    .ok { s with matchList := [], matchIndex := 0 }
  else
    match P.compile s.searchQuery with
    | .error e => .error e
    | .ok regex =>
      let found := (matchAll regex s.fileText).map (fun m => m.index)
      .ok { s with matchList := found, matchIndex := 0 }

/-- A render after an event handler took the state from `old` to `new`: the search
effect runs when one of its dependencies changed. -/
def commit (P : Platform) (old new : AppState) : Except JSError AppState :=
  if new.searchQuery = old.searchQuery ∧ new.fileText = old.fileText then .ok new
  else searchEffect P new

/-- `onChange` of the search box: `setSearchQuery(e.target.value)`. -/
def setSearchQuery (P : Platform) (s : AppState) (q : Str) : Except JSError AppState :=
  commit P s { s with searchQuery := q }

/-- `onClick` of a recent item. -/
def selectRecent (P : Platform) (s : AppState) (f : FileEntry) : Except JSError AppState :=
  commit P s { s with selectedFile := some f, fileText := f.content, searchQuery := [] }

/-- `resetViewer`. -/
def resetViewer (P : Platform) (s : AppState) : Except JSError AppState :=
  commit P s { s with selectedFile := none, fileText := [], searchQuery := [],
                      matchList := [], matchIndex := 0 }

/-- `nextMatch`; `%` on integers is the truncating remainder. -/
def nextMatch (s : AppState) : AppState :=
  if s.matchList.length = 0 then s
  else { s with matchIndex := Int.tmod (s.matchIndex + 1) s.matchList.length }

/-- `prevMatch`. -/
def prevMatch (s : AppState) : AppState :=
  if s.matchList.length = 0 then s
  else { s with matchIndex := Int.tmod (s.matchIndex - 1 + s.matchList.length) s.matchList.length }

/-! ## Highlighting -/

/-- An element of the array `highlightText` returns: a string or a `<mark>` element. -/
inductive Node
  | text (part : Str)
  | mark (key : Nat) (className : Str) (part : Str)
  deriving DecidableEq

/-- The value `highlightText` returns: `text` itself, or the mapped array. -/
inductive Rendered
  | string (text : Str)
  | array (nodes : List Node)
  deriving DecidableEq

/-- The callback of `.map((part, idx) => ...)` run over the parts, with the counter `i`
threaded through; `undefined.toLowerCase()` raises a `TypeError`. -/
def mapParts (P : Platform) (query : Str) (activeIndex : Int) :
    List (Option Str) → Nat → Int → Except JSError (List Node)
  | [], _, _ => .ok []
  | none :: _, _, _ => .error .typeError
  | some part :: rest, idx, i =>
    if toLowerCase P part = toLowerCase P query then
      match mapParts P query activeIndex rest (idx + 1) (i + 1) with
      | .error e => .error e
      | .ok nodes =>
        .ok (.mark idx (if i + 1 = activeIndex then utf16 "active" else []) part :: nodes)
    else
      match mapParts P query activeIndex rest (idx + 1) i with
      | .error e => .error e
      | .ok nodes => .ok (.text part :: nodes)

/-- `highlightText(text, query, activeIndex)`. -/
def highlightText (P : Platform) (text query : Str) (activeIndex : Int) :
    Except JSError Rendered :=
  if query = [] then .ok (.string text)
  else
    match P.compile ('('.toNat :: (query ++ [')'.toNat])) with
    | .error e => .error e
    | .ok regex =>
      match mapParts P query activeIndex (split regex text) 0 (-1) with
      | .error e => .error e
      | .ok nodes => .ok (.array nodes)

/-- The text a node displays. -/
def Node.content : Node → Str
  | .text part => part
  | .mark _ _ part => part

/-- The segments of a rendered value, left to right. -/
def Rendered.segments : Rendered → List Node
  | .string text => [.text text]
  | .array nodes => nodes

/-- The texts of the segments, concatenated in order. -/
def Rendered.concat (r : Rendered) : Str :=
  (r.segments.map Node.content).flatten

/-- The highlighted segments (`<mark>` elements) as pairs (class name, text). -/
def Rendered.marks (r : Rendered) : List (Str × Str) :=
  r.segments.filterMap fun n =>
    match n with
    | .text _ => none
    | .mark _ cls part => some (cls, part)

/-! ## Presentation extraction -/

/-- What a slide holds where `parsePPT` expects an array of strings: nothing, an array,
or a value that passes the guard `x && x.length` but has no `join` (calling it raises a
`TypeError`). -/
inductive SlideList
  | absent
  | items (xs : List Str)
  | notArray
  deriving DecidableEq

/-- A slide of the decoded presentation. -/
structure Slide where
  title : Option Str
  texts : SlideList
  notes : SlideList
  deriving DecidableEq

/-- The value `Pptx2Json.parse` resolves to; `slides = none` when `data.slides` is not an
array (calling `forEach` on it raises a `TypeError`). -/
structure PptData where
  slides : Option (List Slide)
  deriving DecidableEq

/-- The guard `x && x.length` followed by `x.join("\n") + "\n"`: `none` when the guard is
falsy. -/
def joinedLines : SlideList → Except JSError (Option Str)
  | .absent => .ok none
  | .items [] => .ok none
  | .items (x :: xs) => .ok (some (join [0xA] (x :: xs) ++ [0xA]))
  | .notArray => .error .typeError

/-- The callback of `data.slides.forEach((slide, index) => ...)`, from the accumulator
`allText` to its new value. -/
def slideStep (allText : Str) (slide : Slide) (index : Nat) : Except JSError Str :=
  let allText := allText ++ (utf16 "\n--- Slide " ++ utf16 (toString (index + 1))
    ++ utf16 " ---\n")
  let allText :=
    match slide.title with
    | none => allText
    | some title =>
      if title = [] then allText else allText ++ (utf16 "Title: " ++ title ++ [0xA])
  match joinedLines slide.texts with
  | .error e => .error e
  | .ok texts =>
    let allText := allText ++ texts.getD []
    match joinedLines slide.notes with
    | .error e => .error e
    | .ok none => .ok allText
    | .ok (some notes) => .ok (allText ++ (utf16 "Notes:\n" ++ notes))

/-- The loop `data.slides.forEach`. -/
def forEachSlide : List Slide → Nat → Str → Except JSError Str
  | [], _, allText => .ok allText
  | slide :: rest, index, allText =>
    match slideStep allText slide index with
    | .error e => .error e
    | .ok allText => forEachSlide rest (index + 1) allText

/-- The string returned when nothing readable was found. -/
def noReadableText : Str := utf16 "No readable text found in this presentation."

/-- The string returned from the `catch` block. -/
def unableToExtract : Str :=
  utf16 "Unable to extract PowerPoint text. Please check file format."

/-- The `try` block of `parsePPT`. -/
def parsePPTBody (pptxParse : ArrayBuffer → Except JSError PptData)
    (arrayBuffer : ArrayBuffer) : Except JSError Str :=
  match pptxParse arrayBuffer with
  | .error e => .error e
  | .ok data =>
    match data.slides with
    | none => .error .typeError
    | some slides =>
      match forEachSlide slides 0 [] with
      | .error e => .error e
      | .ok allText => .ok (if trim allText = [] then noReadableText else allText)

/-- `parsePPT(arrayBuffer)`, the value its promise resolves to; `pptxParse` is
`window.Pptx2Json.parse`. -/
def parsePPT (pptxParse : ArrayBuffer → Except JSError PptData)
    (arrayBuffer : ArrayBuffer) : Str :=
  match parsePPTBody pptxParse arrayBuffer with
  | .ok allText => allText
  | .error _ => unableToExtract

/-! ## Upload -/

/-- The file chosen in the input element, with the bytes `FileReader` hands over. -/
structure File where
  name : Str
  bytes : ArrayBuffer
  deriving DecidableEq

/-- The decoders outside this file that `handleFileUpload` and the parse helpers call. -/
structure Extractors where
  textDecode : ArrayBuffer → Str
  parsePDF : ArrayBuffer → Except JSError Str
  parseDOCX : ArrayBuffer → Except JSError Str
  parseXLS : ArrayBuffer → Except JSError Str
  pptxParse : ArrayBuffer → Except JSError PptData

/-- The two `alert` messages of the handler. -/
inductive Alert
  | unsupportedFileType
  | errorReadingFile
  deriving DecidableEq

/-- The constant `ext`: `file.name.split(".").pop().toLowerCase()`. -/
def extOf (P : Platform) (name : Str) : Str :=
  toLowerCase P ((splitDot name).getLastD [])

/-- The cascade on `ext` inside `reader.onload`: the content, `none` in the final `else`
branch, or the exception an extractor raised. -/
def readContent (X : Extractors) (ext : Str) (buf : ArrayBuffer) :
    Except JSError (Option Str) :=
  if ext ∈ [utf16 "txt", utf16 "csv"] then .ok (some (X.textDecode buf))
  else if ext = utf16 "pdf" then (X.parsePDF buf).map some
  else if ext ∈ [utf16 "doc", utf16 "docx"] then (X.parseDOCX buf).map some
  else if ext ∈ [utf16 "xls", utf16 "xlsx"] then (X.parseXLS buf).map some
  else if ext ∈ [utf16 "ppt", utf16 "pptx"] then .ok (some (parsePPT X.pptxParse buf))
  else .ok none

/-- `handleFileUpload` followed by `reader.onload`: the new state and the alert shown. -/
def handleFileUpload (P : Platform) (X : Extractors) (s : AppState)
    (file : Option File) : Except JSError (AppState × Option Alert) :=
  match file with
  | none => .ok (s, none)
  | some file =>
    let ext := extOf P file.name
    match readContent X ext file.bytes with
    | .error _ => .ok (s, some .errorReadingFile)
    | .ok none => .ok (s, some .unsupportedFileType)
    | .ok (some content) =>
      let newFile : FileEntry := ⟨file.name, content⟩
      let updated := s.files ++ [newFile]
      match commit P s { s with files := updated, recentUploads := some updated,
                                selectedFile := some newFile, fileText := content,
                                searchQuery := [] } with
      | .error e => .error e
      | .ok s2 => .ok (s2, none)

/-- The upload of `file` went through with the text `content`: no alert, the entry is
appended to `files` and stored, it is the selected document, `content` is the document
text and the query is cleared. -/
def AcceptedWith (P : Platform) (X : Extractors) (s : AppState) (file : File)
    (content : Str) : Prop :=
  ∃ s2, handleFileUpload P X s (some file) = .ok (s2, none) ∧
    s2.files = s.files ++ [⟨file.name, content⟩] ∧
    s2.recentUploads = some (s.files ++ [⟨file.name, content⟩]) ∧
    s2.selectedFile = some ⟨file.name, content⟩ ∧
    s2.fileText = content ∧ s2.searchQuery = []

/-! ## Reachable states -/

/-- The states the application reaches from mount through the search box, uploads, the
recent list, the two arrows and the reset button. A step whose effect raises ends the
run (the component is unmounted), so it leads to no state. -/
inductive Reachable (P : Platform) (X : Extractors) : AppState → Prop
  | mount (saved : Option (List FileEntry)) : Reachable P X (initialState saved)
  | query {s s2 : AppState} (q : Str) :
      Reachable P X s → setSearchQuery P s q = .ok s2 → Reachable P X s2
  | upload {s s2 : AppState} (file : Option File) (a : Option Alert) :
      Reachable P X s → handleFileUpload P X s file = .ok (s2, a) → Reachable P X s2
  | recent {s s2 : AppState} (f : FileEntry) :
      Reachable P X s → f ∈ s.files → selectRecent P s f = .ok s2 → Reachable P X s2
  | next {s : AppState} : Reachable P X s → Reachable P X (nextMatch s)
  | prev {s : AppState} : Reachable P X s → Reachable P X (prevMatch s)
  | reset {s s2 : AppState} :
      Reachable P X s → resetViewer P s = .ok s2 → Reachable P X s2

/-- The cursor is a valid index of the match list, and `0` when the list is empty. -/
def CursorValid (s : AppState) : Prop :=
  (s.matchList = [] → s.matchIndex = 0) ∧
  (s.matchList ≠ [] → 0 ≤ s.matchIndex ∧ s.matchIndex < s.matchList.length)

/-! ## The scan of the specification -/

/-- Section 4.3 of the specification, "treated as a literal substring": the query stands
at the head of the text, code unit by code unit, up to the comparison `same`. -/
def startsWithSame (same : Nat → Nat → Bool) : Str → Str → Bool
  | [], _ => true
  | _ :: _, [] => false
  | q :: qs, t :: ts => same q t && startsWithSame same qs ts

/-- Section 4.3 of the specification: the text is scanned left to right; an occurrence of
the query at the current offset is recorded and the scan resumes after it (occurrences
do not overlap), otherwise the scan moves one position on. `skip` is the number of
positions still covered by the last occurrence and `offset` the offset of the head of
the remaining text. -/
def specScan (same : Nat → Nat → Bool) (query : Str) : Nat → Nat → Str → List Nat
  | _, _, [] => []
  | skip + 1, offset, _ :: rest => specScan same query skip (offset + 1) rest
  | 0, offset, c :: rest =>
    if startsWithSame same query (c :: rest) then
      offset :: specScan same query (query.length - 1) (offset + 1) rest
    else specScan same query 0 (offset + 1) rest

/-- Two code units are the same under the `i` flag: they have the same canonical form. -/
def canonSame (T : CaseTable) (a b : Nat) : Bool :=
  canonicalize T.upper a == canonicalize T.upper b

/-- Two code units are the same up to the case of ASCII letters. -/
def asciiSame (a b : Nat) : Bool :=
  asciiLower a == asciiLower b

/-- Two code units are the same ignoring case in the sense of line 20 of `app.js`: as
one-unit strings they have the same `toLowerCase()`. -/
def lowerSame (P : Platform) (a b : Nat) : Bool :=
  toLowerCase P [a] == toLowerCase P [b]

/-- The syntax characters of ECMAScript patterns. -/
def syntaxChars : List Nat :=
  '('.toNat :: ')'.toNat :: '.'.toNat :: unsupportedChars

/-- No code unit of the query has a meaning in pattern syntax (as is the case for
letters, digits and spaces). -/
def LiteralQuery (query : Str) : Prop :=
  ∀ c ∈ query, c ∉ syntaxChars

instance (query : Str) : Decidable (LiteralQuery query) :=
  inferInstanceAs (Decidable (∀ c ∈ query, c ∉ syntaxChars))

/-! ## A worked scenario -/

/-- The decoders of the worked scenario: every upload decodes to the text `a a a b`. -/
def scenarioExtractors : Extractors :=
  { textDecode := fun _ => utf16 "a a a b"
    parsePDF := fun _ => .error .decodeError
    parseDOCX := fun _ => .error .decodeError
    parseXLS := fun _ => .error .decodeError
    pptxParse := fun _ => .error .decodeError }

/-- The state of the worked scenario: `a a a b` loaded, query `a`, cursor on the third
of the three matches. -/
def scenarioState : AppState :=
  { files := [⟨utf16 "n.txt", utf16 "a a a b"⟩],
    selectedFile := some ⟨utf16 "n.txt", utf16 "a a a b"⟩,
    fileText := utf16 "a a a b", searchQuery := utf16 "a",
    matchList := [0, 2, 4], matchIndex := 2,
    recentUploads := some [⟨utf16 "n.txt", utf16 "a a a b"⟩] }

/-! ## Patterns whose only group is the whole match -/

/-- On the subject `S` every match of `m` ends inside `S` and has exactly one capture,
the matched text itself (the shape of `(query)` for a query without groups). -/
def WholeCapture (m : Matcher) (S : Str) : Prop :=
  ∀ q r, m S q = some r →
    q + r.len ≤ S.length ∧ r.captures = [some (substring S q (q + r.len))]

/-! ## Navigation -/

theorem nextMatch_iterate (s : AppState) (hc : 0 ≤ s.matchIndex)
    (hlt : s.matchIndex < s.matchList.length) (k : Nat) :
    nextMatch^[k] s =
      { s with matchIndex := (s.matchIndex + k) % (s.matchList.length : Int) } := by
  have hpos : (0 : Int) < (s.matchList.length : Int) := lt_of_le_of_lt hc hlt
  have hlen : s.matchList.length ≠ 0 := by
    intro h; rw [h] at hpos; exact absurd hpos (by decide)
  induction k with
  | zero =>
    simp only [Function.iterate_zero, id_eq, Nat.cast_zero, add_zero]
    rw [Int.emod_eq_of_lt hc hlt]
  | succ k ih =>
    rw [Function.iterate_succ_apply', ih]
    have h1 : (0 : Int) ≤ (s.matchIndex + k) % (s.matchList.length : Int) :=
      Int.emod_nonneg _ (ne_of_gt hpos)
    simp only [nextMatch, hlen, if_false]
    rw [Int.tmod_eq_emod (by omega) (le_of_lt hpos)]
    congr 1
    rw [Int.emod_add_emod]
    push_cast
    ring_nf

/-- C7: on a match list of length `n ≥ 1` with the cursor at a valid index, `nextMatch`
applied `n` times brings the state (hence the cursor) back, `prevMatch` from cursor `0`
gives `n - 1`, and `nextMatch` from `n - 1` gives `0`. -/
theorem cyclic_navigation (s : AppState) (hc : 0 ≤ s.matchIndex)
    (hlt : s.matchIndex < s.matchList.length) :
    nextMatch^[s.matchList.length] s = s ∧
    (s.matchIndex = 0 → (prevMatch s).matchIndex = (s.matchList.length : Int) - 1) ∧
    (s.matchIndex = (s.matchList.length : Int) - 1 → (nextMatch s).matchIndex = 0) := by
  have hpos : (0 : Int) < (s.matchList.length : Int) := lt_of_le_of_lt hc hlt
  have hlen : s.matchList.length ≠ 0 := by
    intro h; rw [h] at hpos; exact absurd hpos (by decide)
  refine ⟨?_, ?_, ?_⟩
  · rw [nextMatch_iterate s hc hlt, Int.add_emod_self, Int.emod_eq_of_lt hc hlt]
  · intro h0
    simp only [prevMatch, hlen, if_false, h0]
    rw [Int.tmod_eq_emod (by omega) (le_of_lt hpos)]
    apply Int.emod_eq_of_lt <;> omega
  · intro h1
    simp only [nextMatch, hlen, if_false, h1]
    rw [Int.tmod_eq_emod (by omega) (le_of_lt hpos)]
    simp

theorem cyclic_navigation_witness :
    (0 : Int) ≤ 2 ∧ (2 : Int) < ([0, 2, 4] : List Nat).length ∧
      nextMatch^[3] ({ initialState none with matchList := [0, 2, 4], matchIndex := 2 }) =
        { initialState none with matchList := [0, 2, 4], matchIndex := 2 } :=
  ⟨by decide, by decide,
    (cyclic_navigation { initialState none with matchList := [0, 2, 4], matchIndex := 2 }
      (by decide) (by decide)).1⟩

/-! ## Match sets -/

theorem execLoop_ge (m : Matcher) (S : Str) (n lastIndex i : Nat) (r : MatchState)
    (h : execLoop m S n lastIndex = some (i, r)) : lastIndex ≤ i := by
  induction n generalizing lastIndex with
  | zero => simp [execLoop] at h
  | succ n ih =>
    unfold execLoop at h
    split at h
    · simp only [Option.some.injEq, Prod.mk.injEq] at h
      omega
    · have := ih _ h
      omega

theorem substring_length_le (S : Str) (p q : Nat) : (substring S p q).length ≤ q - p := by
  unfold substring
  rw [List.length_take]
  exact Nat.min_le_left _ _

theorem matchAllLoop_head_ge (m : Matcher) (S : Str) (fuel lastIndex : Nat) (b : MatchRecord)
    (h : (matchAllLoop m S fuel lastIndex)[0]? = some b) : lastIndex ≤ b.index := by
  cases fuel with
  | zero => simp [matchAllLoop] at h
  | succ fuel =>
    unfold matchAllLoop at h
    split at h
    · simp at h
    · rename_i i r hex
      simp only [List.getElem?_cons_zero, Option.some.injEq] at h
      subst h
      exact execLoop_ge m S _ _ _ _ hex

theorem matchAllLoop_adjacent (m : Matcher) (S : Str) (fuel lastIndex i : Nat)
    (a b : MatchRecord)
    (ha : (matchAllLoop m S fuel lastIndex)[i]? = some a)
    (hb : (matchAllLoop m S fuel lastIndex)[i + 1]? = some b) :
    a.index < b.index ∧ a.index + a.matched.length ≤ b.index := by
  induction fuel generalizing lastIndex i with
  | zero => simp [matchAllLoop] at ha
  | succ fuel ih =>
    unfold matchAllLoop at ha hb
    split at ha
    · simp at ha
    · rename_i j r hex
      rw [hex] at hb
      simp only [List.getElem?_cons_succ] at hb
      cases i with
      | zero =>
        simp only [List.getElem?_cons_zero, Option.some.injEq] at ha
        subst ha
        have hge := matchAllLoop_head_ge m S _ _ b hb
        have hlen := substring_length_le S j (j + r.len)
        simp only
        by_cases hm : substring S j (j + r.len) = []
        · rw [if_pos hm] at hge
          rw [hm]
          simp only [List.length_nil]
          omega
        · rw [if_neg hm] at hge
          have : 0 < (substring S j (j + r.len)).length := List.length_pos.mpr hm
          omega
      | succ i =>
        simp only [List.getElem?_cons_succ] at ha
        exact ih _ _ ha hb

/-- Fuel adequacy: once the iterations left cover the positions left, more fuel does not
change the array, so `matchAll` is the value of the unbounded loop. -/
theorem matchAllLoop_fuel (m : Matcher) (S : Str) (fuel lastIndex k : Nat)
    (h : S.length + 1 ≤ fuel + lastIndex) :
    matchAllLoop m S (fuel + k) lastIndex = matchAllLoop m S fuel lastIndex := by
  induction fuel generalizing lastIndex with
  | zero =>
    have h0 : S.length + 1 - lastIndex = 0 := by omega
    cases k with
    | zero => rfl
    | succ k =>
      simp only [Nat.zero_add]
      unfold matchAllLoop
      simp [RegExpBuiltinExec, h0, execLoop]
  | succ fuel ih =>
    rw [Nat.add_right_comm]
    unfold matchAllLoop
    split
    · rfl
    · rename_i j r hex
      have hge := execLoop_ge m S _ _ _ _ hex
      simp only
      congr 1
      apply ih
      split <;> rename_i hm
      · omega
      · have : 0 < (substring S j (j + r.len)).length := List.length_pos.mpr hm
        have := substring_length_le S j (j + r.len)
        omega

/-- C6: whenever the search step returns a match set, adjacent matches have strictly
ascending start offsets and disjoint spans. -/
theorem matches_ascending_disjoint (P : Platform) (text query : Str)
    (ms : List MatchRecord) (h : searchMatches P text query = .ok ms)
    (i : Nat) (a b : MatchRecord) (ha : ms[i]? = some a) (hb : ms[i + 1]? = some b) :
    a.index < b.index ∧ a.index + a.matched.length ≤ b.index := by
  unfold searchMatches at h
  split at h
  · simp only [Except.ok.injEq] at h
    subst h
    simp at ha
  · split at h
    · simp at h
    · simp only [Except.ok.injEq] at h
      subst h
      exact matchAllLoop_adjacent _ _ _ _ _ _ _ ha hb

theorem matches_ascending_disjoint_witness :
    searchMatches (fragmentEngine unicodeExcerpt) (utf16 "Hello world hello") (utf16 "HELLO")
        = .ok [⟨0, (utf16 "Hello")⟩, ⟨12, (utf16 "hello")⟩] ∧
      (0 : Nat) < 12 ∧ 0 + (utf16 "Hello").length ≤ 12 :=
  ⟨by rfl, matches_ascending_disjoint (fragmentEngine unicodeExcerpt) (utf16 "Hello world hello") (utf16 "HELLO")
      [⟨0, (utf16 "Hello")⟩, ⟨12, (utf16 "hello")⟩] (by rfl) 0 ⟨0, (utf16 "Hello")⟩
      ⟨12, (utf16 "hello")⟩ (by rfl) (by rfl)⟩

/-- The projection of the search effect: its `matches` are the indices of `searchMatches`. -/
theorem searchEffect_eq (P : Platform) (s : AppState) :
    searchEffect P s =
      (searchMatches P s.fileText s.searchQuery).map
        (fun found => { s with matchList := found.map (fun m => m.index), matchIndex := 0 }) := by
  unfold searchEffect searchMatches
  split
  · rfl
  · split <;> rfl

/-! ## The cursor invariant -/

theorem searchEffect_matchIndex (P : Platform) (s s2 : AppState)
    (h : searchEffect P s = .ok s2) : s2.matchIndex = 0 := by
  unfold searchEffect at h
  split at h
  · simp only [Except.ok.injEq] at h
    subst h; rfl
  · split at h
    · simp at h
    · simp only [Except.ok.injEq] at h
      subst h; rfl

theorem cursorValid_of_zero (s : AppState) (h : s.matchIndex = 0) : CursorValid s := by
  refine ⟨fun _ => h, fun hne => ?_⟩
  rw [h]
  have : 0 < s.matchList.length := List.length_pos.mpr hne
  exact ⟨le_refl _, by exact_mod_cast this⟩

theorem commit_cursorValid (P : Platform) (old new s2 : AppState)
    (hnew : CursorValid new) (h : commit P old new = .ok s2) : CursorValid s2 := by
  unfold commit at h
  split at h
  · simp only [Except.ok.injEq] at h
    subst h; exact hnew
  · exact cursorValid_of_zero _ (searchEffect_matchIndex P _ _ h)

theorem nextMatch_cursorValid (s : AppState) (h : CursorValid s) : CursorValid (nextMatch s) := by
  unfold nextMatch
  split
  · exact h
  · rename_i hlen
    have hne : s.matchList ≠ [] := fun h0 => hlen (by rw [h0]; rfl)
    obtain ⟨h0, h1⟩ := h.2 hne
    have hpos : (0 : Int) < (s.matchList.length : Int) := lt_of_le_of_lt h0 h1
    refine ⟨fun hnil => absurd hnil hne, fun _ => ?_⟩
    show 0 ≤ Int.tmod (s.matchIndex + 1) s.matchList.length ∧
      Int.tmod (s.matchIndex + 1) s.matchList.length < s.matchList.length
    rw [Int.tmod_eq_emod (by omega) (le_of_lt hpos)]
    exact ⟨Int.emod_nonneg _ (ne_of_gt hpos), Int.emod_lt_of_pos _ hpos⟩

theorem prevMatch_cursorValid (s : AppState) (h : CursorValid s) : CursorValid (prevMatch s) := by
  unfold prevMatch
  split
  · exact h
  · rename_i hlen
    have hne : s.matchList ≠ [] := fun h0 => hlen (by rw [h0]; rfl)
    obtain ⟨h0, h1⟩ := h.2 hne
    have hpos : (0 : Int) < (s.matchList.length : Int) := lt_of_le_of_lt h0 h1
    refine ⟨fun hnil => absurd hnil hne, fun _ => ?_⟩
    show 0 ≤ Int.tmod (s.matchIndex - 1 + s.matchList.length) s.matchList.length ∧
      Int.tmod (s.matchIndex - 1 + s.matchList.length) s.matchList.length < s.matchList.length
    rw [Int.tmod_eq_emod (by omega) (le_of_lt hpos)]
    exact ⟨Int.emod_nonneg _ (ne_of_gt hpos), Int.emod_lt_of_pos _ hpos⟩

theorem handleFileUpload_cursorValid (P : Platform) (X : Extractors) (s s2 : AppState)
    (file : Option File) (a : Option Alert) (hs : CursorValid s)
    (h : handleFileUpload P X s file = .ok (s2, a)) : CursorValid s2 := by
  unfold handleFileUpload at h
  split at h
  · simp only [Except.ok.injEq, Prod.mk.injEq] at h
    rw [← h.1]; exact hs
  · simp only at h
    split at h
    · simp only [Except.ok.injEq, Prod.mk.injEq] at h
      rw [← h.1]; exact hs
    · simp only [Except.ok.injEq, Prod.mk.injEq] at h
      rw [← h.1]; exact hs
    · split at h
      · simp at h
      · rename_i s3 hc
        simp only [Except.ok.injEq, Prod.mk.injEq] at h
        rw [← h.1]
        refine commit_cursorValid P _ _ _ ?_ hc
        exact hs

theorem reachable_cursorValid (P : Platform) (X : Extractors) (s : AppState)
    (h : Reachable P X s) : CursorValid s := by
  induction h with
  | mount saved => exact cursorValid_of_zero _ rfl
  | query q _ hstep ih =>
    refine commit_cursorValid P _ _ _ ?_ hstep
    exact ih
  | upload file a _ hstep ih => exact handleFileUpload_cursorValid P X _ _ file a ih hstep
  | recent f _ _ hstep ih =>
    refine commit_cursorValid P _ _ _ ?_ hstep
    exact ih
  | next _ ih => exact nextMatch_cursorValid _ ih
  | prev _ ih => exact prevMatch_cursorValid _ ih
  | reset _ hstep ih =>
    refine commit_cursorValid P _ _ _ ?_ hstep
    exact cursorValid_of_zero _ rfl

theorem scenarioState_reachable : Reachable (fragmentEngine unicodeExcerpt) scenarioExtractors scenarioState := by
  have h0 : Reachable (fragmentEngine unicodeExcerpt) scenarioExtractors (initialState none) :=
    Reachable.mount none
  have h1 : Reachable (fragmentEngine unicodeExcerpt) scenarioExtractors
      { scenarioState with searchQuery := [], matchList := [], matchIndex := 0 } :=
    Reachable.upload (some ⟨(utf16 "n.txt"), []⟩) none h0 (by rfl)
  have h2 : Reachable (fragmentEngine unicodeExcerpt) scenarioExtractors
      { scenarioState with matchIndex := 0 } :=
    Reachable.query (utf16 "a") h1 (by rfl)
  exact Reachable.next (Reachable.next h2)

/-- C8: every reachable state has a valid cursor (`0` on an empty match set, an index of
the set otherwise); the arrows change nothing on an empty set; every recomputation of the
match set leaves the cursor at `0`; and a cursor of `2` on three matches becomes `0` when
the query changes to one with a single match. -/
theorem cursor_invariant (P : Platform) (X : Extractors) :
    (∀ s, Reachable P X s → CursorValid s) ∧
    (∀ s, s.matchList = [] → nextMatch s = s ∧ prevMatch s = s) ∧
    (∀ s s2, searchEffect P s = .ok s2 → s2.matchIndex = 0) ∧
    (scenarioState.matchList.length = 3 ∧ scenarioState.matchIndex = 2 ∧
      setSearchQuery (fragmentEngine unicodeExcerpt) scenarioState (utf16 "b") =
        .ok { scenarioState with searchQuery := (utf16 "b"), matchList := [6],
                                 matchIndex := 0 }) := by
  refine ⟨reachable_cursorValid P X, ?_, searchEffect_matchIndex P, rfl, rfl, by rfl⟩
  intro s hs
  simp [nextMatch, prevMatch, hs]

theorem cursor_invariant_witness :
    Reachable (fragmentEngine unicodeExcerpt) scenarioExtractors scenarioState ∧ CursorValid scenarioState :=
  ⟨scenarioState_reachable,
    (cursor_invariant (fragmentEngine unicodeExcerpt) scenarioExtractors).1 scenarioState
      scenarioState_reachable⟩

/-! ## Presentation extraction -/

theorem trim_eq_nil_iff (s : Str) : trim s = [] ↔ ∀ c ∈ s, isWhiteSpace c = true := by
  unfold trim
  rw [List.reverse_eq_nil_iff, List.dropWhile_eq_nil_iff]
  constructor
  · intro h c hc
    by_cases hd : s.dropWhile isWhiteSpace = []
    · exact List.dropWhile_eq_nil_iff.mp hd c hc
    · have hmem : (s.dropWhile isWhiteSpace).head hd ∈ (s.dropWhile isWhiteSpace).reverse :=
        List.mem_reverse.mpr (List.head_mem hd)
      have h1 := h _ hmem
      have h2 := List.head_dropWhile_not isWhiteSpace s hd
      rw [h1] at h2
      exact absurd h2 (by decide)
  · intro h c hc
    have hc2 : c ∈ s.dropWhile isWhiteSpace := List.mem_reverse.mp hc
    exact h c ((List.dropWhile_sublist _).subset hc2)

theorem exists_nonWhiteSpace_of_trim (s : Str) (h : trim s ≠ []) :
    ∃ c ∈ s, isWhiteSpace c = false := by
  by_contra hcon
  apply h
  rw [trim_eq_nil_iff]
  intro c hc
  by_contra hw
  exact hcon ⟨c, hc, by simpa using hw⟩

theorem slideStep_append (allText : Str) (slide : Slide) (index : Nat) (t : Str)
    (h : slideStep allText slide index = .ok t) :
    ∃ rest, t = allText ++ (utf16 "\n--- Slide " ++ utf16 (toString (index + 1))
      ++ utf16 " ---\n") ++ rest := by
  unfold slideStep at h
  simp only at h
  split at h
  · simp at h
  · split at h
    · simp at h
    · simp only [Except.ok.injEq] at h
      rw [← h]
      cases slide.title with
      | none => exact ⟨_, by simp only [List.append_assoc]; rfl⟩
      | some title =>
        by_cases ht : title = []
        · simp only [ht, if_true]
          exact ⟨_, by simp only [List.append_assoc]; rfl⟩
        · simp only [ht, if_false]
          exact ⟨_, by simp only [List.append_assoc]; rfl⟩
    · simp only [Except.ok.injEq] at h
      rw [← h]
      cases slide.title with
      | none => exact ⟨_, by simp only [List.append_assoc]; rfl⟩
      | some title =>
        by_cases ht : title = []
        · simp only [ht, if_true]
          exact ⟨_, by simp only [List.append_assoc]; rfl⟩
        · simp only [ht, if_false]
          exact ⟨_, by simp only [List.append_assoc]; rfl⟩

theorem forEachSlide_append (slides : List Slide) (index : Nat) (allText t : Str)
    (h : forEachSlide slides index allText = .ok t) : ∃ rest, t = allText ++ rest := by
  induction slides generalizing index allText with
  | nil =>
    simp only [forEachSlide, Except.ok.injEq] at h
    exact ⟨[], by simp [h]⟩
  | cons slide rest ih =>
    unfold forEachSlide at h
    split at h
    · simp at h
    · rename_i t1 h1
      obtain ⟨r1, hr1⟩ := slideStep_append _ _ _ _ h1
      obtain ⟨r2, hr2⟩ := ih _ _ h
      exact ⟨_, by rw [hr2, hr1, List.append_assoc, List.append_assoc]⟩

theorem forEachSlide_marker (slide : Slide) (slides : List Slide) (t : Str)
    (h : forEachSlide (slide :: slides) 0 [] = .ok t) :
    ∃ rest, t = utf16 "\n--- Slide 1 ---\n" ++ rest := by
  unfold forEachSlide at h
  split at h
  · simp at h
  · rename_i t1 h1
    obtain ⟨r1, hr1⟩ := slideStep_append _ _ _ _ h1
    obtain ⟨r2, hr2⟩ := forEachSlide_append _ _ _ _ h
    refine ⟨r1 ++ r2, ?_⟩
    rw [hr2, hr1, List.nil_append, List.append_assoc]
    rfl

/-- C9: `parsePPT` always resolves to a string with a character that is not white space,
and to the fixed fallback when the decode or a slide step raises; but the placeholder is
returned only for a deck without slides: as soon as there is a slide the collected text
starts with the marker of slide 1, so a deck whose one slide has no title, texts or
notes yields that marker, not the placeholder. -/
theorem parsePPT_slide_markers (pptxParse : ArrayBuffer → Except JSError PptData)
    (arrayBuffer : ArrayBuffer) :
    (∃ c ∈ parsePPT pptxParse arrayBuffer, isWhiteSpace c = false) ∧
    (∀ e, pptxParse arrayBuffer = .error e →
      parsePPT pptxParse arrayBuffer = unableToExtract) ∧
    (pptxParse arrayBuffer = .ok ⟨none⟩ →
      parsePPT pptxParse arrayBuffer = unableToExtract) ∧
    (∀ slides e, pptxParse arrayBuffer = .ok ⟨some slides⟩ →
      forEachSlide slides 0 [] = .error e →
      parsePPT pptxParse arrayBuffer = unableToExtract) ∧
    (pptxParse arrayBuffer = .ok ⟨some []⟩ →
      parsePPT pptxParse arrayBuffer = noReadableText) ∧
    (∀ slide slides allText, pptxParse arrayBuffer = .ok ⟨some (slide :: slides)⟩ →
      forEachSlide (slide :: slides) 0 [] = .ok allText →
      parsePPT pptxParse arrayBuffer = allText ∧
      (∃ rest, allText = utf16 "\n--- Slide 1 ---\n" ++ rest) ∧
      allText ≠ noReadableText) ∧
    (parsePPT (fun _ => .ok ⟨some [⟨none, .absent, .absent⟩]⟩) [] =
        utf16 "\n--- Slide 1 ---\n" ∧
      utf16 "\n--- Slide 1 ---\n" ≠ noReadableText) := by
  have hfallback : ∃ c ∈ unableToExtract, isWhiteSpace c = false :=
    ⟨'U'.toNat, by decide, by decide⟩
  have hplace : ∃ c ∈ noReadableText, isWhiteSpace c = false :=
    ⟨'N'.toNat, by decide, by decide⟩
  refine ⟨?_, ?_, ?_, ?_, ?_, ?_, by rfl, by decide⟩
  · unfold parsePPT parsePPTBody
    cases hd : pptxParse arrayBuffer with
    | error e => exact hfallback
    | ok data =>
      cases hs : data.slides with
      | none => simp only [hs]; exact hfallback
      | some slides =>
        cases hf : forEachSlide slides 0 [] with
        | error e => simp only [hs, hf]; exact hfallback
        | ok allText =>
          by_cases ht : trim allText = []
          · simp only [hs, hf, ht, if_true]; exact hplace
          · simp only [hs, hf, ht, if_false]; exact exists_nonWhiteSpace_of_trim _ ht
  · intro e he
    simp [parsePPT, parsePPTBody, he]
  · intro he
    simp [parsePPT, parsePPTBody, he]
  · intro slides e he hf
    simp [parsePPT, parsePPTBody, he, hf]
  · intro he
    simp only [parsePPT, parsePPTBody, he, forEachSlide]
    rfl
  · intro slide slides allText he hf
    obtain ⟨rest, hrest⟩ := forEachSlide_marker slide slides allText hf
    have hmem : '-'.toNat ∈ allText := by
      rw [hrest]
      exact List.mem_append_left _ (by decide)
    have ht : trim allText ≠ [] := by
      intro h0
      have := (trim_eq_nil_iff allText).mp h0 _ hmem
      revert this
      decide
    refine ⟨?_, ⟨rest, hrest⟩, ?_⟩
    · simp [parsePPT, parsePPTBody, he, hf, ht]
    · intro heq
      rw [hrest] at heq
      have h0 := congrArg List.head? heq
      have h1 : (utf16 "\n--- Slide 1 ---\n" ++ rest).head? = some 10 := rfl
      have h2 : noReadableText.head? = some 78 := rfl
      rw [h1, h2] at h0
      exact absurd h0 (by decide)

theorem parsePPT_slide_markers_witness :
    (fun _ => Except.ok ⟨some [⟨none, .absent, .absent⟩]⟩ :
        ArrayBuffer → Except JSError PptData) [] = .ok ⟨some [⟨none, .absent, .absent⟩]⟩ ∧
      forEachSlide [⟨none, .absent, .absent⟩] 0 [] = .ok (utf16 "\n--- Slide 1 ---\n") ∧
      parsePPT (fun _ => .ok ⟨some [⟨none, .absent, .absent⟩]⟩) [] =
        utf16 "\n--- Slide 1 ---\n" :=
  ⟨rfl, by rfl,
    ((parsePPT_slide_markers (fun _ => .ok ⟨some [⟨none, .absent, .absent⟩]⟩) []).2.2.2.2.2.1
      ⟨none, .absent, .absent⟩ [] (utf16 "\n--- Slide 1 ---\n") rfl (by rfl)).1⟩

/-! ## Upload -/

theorem splitDot_ne_nil (name : Str) : splitDot name ≠ [] := by
  cases name with
  | nil => simp [splitDot]
  | cons c cs =>
    unfold splitDot
    split
    · simp
    · split <;> simp

theorem splitDot_of_not_mem (name : Str) (h : '.'.toNat ∉ name) : splitDot name = [name] := by
  induction name with
  | nil => rfl
  | cons c cs ih =>
    have hc : c ≠ '.'.toNat := fun hc => h (by rw [hc]; exact List.mem_cons_self _ _)
    have hcs : '.'.toNat ∉ cs := fun hm => h (List.mem_cons_of_mem _ hm)
    unfold splitDot
    rw [if_neg hc, ih hcs]

theorem splitDot_append (pre suf : Str) (h : '.'.toNat ∉ suf) :
    ∃ l, l ≠ [] ∧ splitDot (pre ++ '.'.toNat :: suf) = l ++ [suf] := by
  induction pre with
  | nil =>
    refine ⟨[[]], by simp, ?_⟩
    have h1 : splitDot ('.'.toNat :: suf) = [] :: splitDot suf := by
      rw [splitDot]; simp
    rw [List.nil_append, h1, splitDot_of_not_mem suf h]
    rfl
  | cons c cs ih =>
    obtain ⟨l, hl, hsp⟩ := ih
    cases l with
    | nil => exact absurd rfl hl
    | cons p ps =>
      rw [List.cons_append]
      unfold splitDot
      by_cases hc : c = '.'.toNat
      · rw [if_pos hc, hsp]
        exact ⟨[] :: p :: ps, by simp, rfl⟩
      · rw [if_neg hc, hsp]
        exact ⟨(c :: p) :: ps, by simp, rfl⟩

theorem extOf_of_dot (P : Platform) (pre suf : Str) (h : '.'.toNat ∉ suf) :
    extOf P (pre ++ '.'.toNat :: suf) = toLowerCase P suf := by
  obtain ⟨l, _, hsp⟩ := splitDot_append pre suf h
  unfold extOf
  rw [hsp]
  simp [List.getLastD_eq_getLast?]

theorem extOf_of_not_mem (P : Platform) (name : Str) (h : '.'.toNat ∉ name) :
    extOf P name = toLowerCase P name := by
  unfold extOf
  rw [splitDot_of_not_mem name h]
  rfl

theorem readContent_none (X : Extractors) (ext : Str) (buf : ArrayBuffer)
    (h : ext ∉ [(utf16 "txt"), (utf16 "csv"), (utf16 "pdf"), (utf16 "doc"), (utf16 "docx"),
      (utf16 "xls"), (utf16 "xlsx"), (utf16 "ppt"), (utf16 "pptx")]) :
    readContent X ext buf = .ok none := by
  simp only [List.mem_cons, List.mem_singleton, not_or, List.not_mem_nil, or_false] at h
  obtain ⟨h1, h2, h3, h4, h5, h6, h7, h8, h9⟩ := h
  unfold readContent
  rw [if_neg (by simp only [List.mem_cons, List.mem_singleton, List.not_mem_nil, or_false]; tauto),
    if_neg h3,
    if_neg (by simp only [List.mem_cons, List.mem_singleton, List.not_mem_nil, or_false]; tauto),
    if_neg (by simp only [List.mem_cons, List.mem_singleton, List.not_mem_nil, or_false]; tauto),
    if_neg (by simp only [List.mem_cons, List.mem_singleton, List.not_mem_nil, or_false]; tauto)]

theorem commit_empty_query (P : Platform) (old new : AppState) (h : new.searchQuery = []) :
    ∃ s2, commit P old new = .ok s2 ∧ s2.files = new.files ∧
      s2.recentUploads = new.recentUploads ∧ s2.selectedFile = new.selectedFile ∧
      s2.fileText = new.fileText ∧ s2.searchQuery = new.searchQuery := by
  unfold commit
  split
  · exact ⟨new, rfl, rfl, rfl, rfl, rfl, rfl⟩
  · unfold searchEffect
    rw [if_pos h]
    exact ⟨_, rfl, rfl, rfl, rfl, rfl, rfl⟩

theorem acceptedWith_of_readContent (P : Platform) (X : Extractors) (s : AppState)
    (file : File) (content : Str)
    (h : readContent X (extOf P file.name) file.bytes = .ok (some content)) :
    AcceptedWith P X s file content := by
  unfold AcceptedWith handleFileUpload
  simp only [h]
  obtain ⟨s2, hc, h1, h2, h3, h4, h5⟩ := commit_empty_query P s
    { s with files := s.files ++ [⟨file.name, content⟩],
             recentUploads := some (s.files ++ [⟨file.name, content⟩]),
             selectedFile := some ⟨file.name, content⟩, fileText := content,
             searchQuery := [] } rfl
  rw [hc]
  exact ⟨s2, rfl, h1, h2, h3, h4, h5⟩

theorem errorReadingFile_of_readContent (P : Platform) (X : Extractors) (s : AppState)
    (file : File) (e : JSError)
    (h : readContent X (extOf P file.name) file.bytes = .error e) :
    handleFileUpload P X s (some file) = .ok (s, some .errorReadingFile) := by
  unfold handleFileUpload
  simp only [h]

/-- C10 (amended): the key of the dispatch is the piece of the file name after its last
`.` (the whole name when it has no `.`), in lower case. On the keys txt and csv the
handler accepts the file with the text of the plain-text decoder, on pdf with the text
of the PDF extractor, on doc and docx of the word-processor extractor, on xls and xlsx
of the spreadsheet extractor, on ppt and pptx of `parsePPT` (an extractor that raises
gives the reading-error alert and leaves the state as it was); on every other key the
upload is rejected as unsupported, whatever the decoders do, with the state unchanged. -/
theorem upload_dispatch (P : Platform) (X : Extractors) (s : AppState) (file : File) :
    (∀ pre suf, file.name = pre ++ '.'.toNat :: suf → '.'.toNat ∉ suf →
      extOf P file.name = toLowerCase P suf) ∧
    ('.'.toNat ∉ file.name → extOf P file.name = toLowerCase P file.name) ∧
    (extOf P file.name ∈ [(utf16 "txt"), (utf16 "csv")] →
      readContent X (extOf P file.name) file.bytes = .ok (some (X.textDecode file.bytes)) ∧
      AcceptedWith P X s file (X.textDecode file.bytes)) ∧
    (extOf P file.name = (utf16 "pdf") →
      readContent X (extOf P file.name) file.bytes = (X.parsePDF file.bytes).map some ∧
      (∀ content, X.parsePDF file.bytes = .ok content → AcceptedWith P X s file content) ∧
      (∀ e, X.parsePDF file.bytes = .error e →
        handleFileUpload P X s (some file) = .ok (s, some .errorReadingFile))) ∧
    (extOf P file.name ∈ [(utf16 "doc"), (utf16 "docx")] →
      readContent X (extOf P file.name) file.bytes = (X.parseDOCX file.bytes).map some ∧
      (∀ content, X.parseDOCX file.bytes = .ok content → AcceptedWith P X s file content) ∧
      (∀ e, X.parseDOCX file.bytes = .error e →
        handleFileUpload P X s (some file) = .ok (s, some .errorReadingFile))) ∧
    (extOf P file.name ∈ [(utf16 "xls"), (utf16 "xlsx")] →
      readContent X (extOf P file.name) file.bytes = (X.parseXLS file.bytes).map some ∧
      (∀ content, X.parseXLS file.bytes = .ok content → AcceptedWith P X s file content) ∧
      (∀ e, X.parseXLS file.bytes = .error e →
        handleFileUpload P X s (some file) = .ok (s, some .errorReadingFile))) ∧
    (extOf P file.name ∈ [(utf16 "ppt"), (utf16 "pptx")] →
      readContent X (extOf P file.name) file.bytes =
        .ok (some (parsePPT X.pptxParse file.bytes)) ∧
      AcceptedWith P X s file (parsePPT X.pptxParse file.bytes)) ∧
    (extOf P file.name ∉ [(utf16 "txt"), (utf16 "csv"), (utf16 "pdf"), (utf16 "doc"),
        (utf16 "docx"), (utf16 "xls"), (utf16 "xlsx"), (utf16 "ppt"), (utf16 "pptx")] →
      handleFileUpload P X s (some file) = .ok (s, some .unsupportedFileType)) := by
  have hvia : ∀ (f : ArrayBuffer → Except JSError Str),
      readContent X (extOf P file.name) file.bytes = (f file.bytes).map some →
      (∀ content, f file.bytes = .ok content → AcceptedWith P X s file content) ∧
      (∀ e, f file.bytes = .error e →
        handleFileUpload P X s (some file) = .ok (s, some .errorReadingFile)) := by
    intro f hr
    constructor
    · intro content hc
      apply acceptedWith_of_readContent
      rw [hr, hc]; rfl
    · intro e he
      apply errorReadingFile_of_readContent P X s file e
      rw [hr, he]; rfl
  refine ⟨?_, extOf_of_not_mem P _, ?_, ?_, ?_, ?_, ?_, ?_⟩
  · intro pre suf hn hs
    rw [hn]; exact extOf_of_dot P pre suf hs
  · intro h
    have hr : readContent X (extOf P file.name) file.bytes =
        .ok (some (X.textDecode file.bytes)) := by
      simp only [List.mem_cons, List.mem_singleton, List.not_mem_nil, or_false] at h
      rcases h with h | h <;> rw [h] <;> rfl
    exact ⟨hr, acceptedWith_of_readContent P X s file _ hr⟩
  · intro h
    have hr : readContent X (extOf P file.name) file.bytes =
        (X.parsePDF file.bytes).map some := by
      rw [h]; rfl
    exact ⟨hr, hvia _ hr⟩
  · intro h
    have hr : readContent X (extOf P file.name) file.bytes =
        (X.parseDOCX file.bytes).map some := by
      simp only [List.mem_cons, List.mem_singleton, List.not_mem_nil, or_false] at h
      rcases h with h | h <;> rw [h] <;> rfl
    exact ⟨hr, hvia _ hr⟩
  · intro h
    have hr : readContent X (extOf P file.name) file.bytes =
        (X.parseXLS file.bytes).map some := by
      simp only [List.mem_cons, List.mem_singleton, List.not_mem_nil, or_false] at h
      rcases h with h | h <;> rw [h] <;> rfl
    exact ⟨hr, hvia _ hr⟩
  · intro h
    have hr : readContent X (extOf P file.name) file.bytes =
        .ok (some (parsePPT X.pptxParse file.bytes)) := by
      simp only [List.mem_cons, List.mem_singleton, List.not_mem_nil, or_false] at h
      rcases h with h | h <;> rw [h] <;> rfl
    exact ⟨hr, acceptedWith_of_readContent P X s file _ hr⟩
  · intro h
    unfold handleFileUpload
    simp only [readContent_none X _ file.bytes h]

theorem upload_dispatch_witness :
    (extOf (fragmentEngine unicodeExcerpt) (utf16 "Notes.TXT") ∈
        [(utf16 "txt"), (utf16 "csv")] ∧
      AcceptedWith (fragmentEngine unicodeExcerpt) scenarioExtractors (initialState none)
        ⟨utf16 "Notes.TXT", [104, 105]⟩ (utf16 "a a a b")) ∧
    (extOf (fragmentEngine unicodeExcerpt) (utf16 "setup.EXE") ∉
        [(utf16 "txt"), (utf16 "csv"), (utf16 "pdf"), (utf16 "doc"), (utf16 "docx"),
          (utf16 "xls"), (utf16 "xlsx"), (utf16 "ppt"), (utf16 "pptx")] ∧
      handleFileUpload (fragmentEngine unicodeExcerpt) scenarioExtractors scenarioState
        (some ⟨utf16 "setup.EXE", [77, 90]⟩) =
        .ok (scenarioState, some .unsupportedFileType)) :=
  ⟨⟨by decide, ((upload_dispatch (fragmentEngine unicodeExcerpt) scenarioExtractors
      (initialState none) ⟨utf16 "Notes.TXT", [104, 105]⟩).2.2.1 (by decide)).2⟩,
    ⟨by decide, (upload_dispatch (fragmentEngine unicodeExcerpt) scenarioExtractors
      scenarioState ⟨utf16 "setup.EXE", [77, 90]⟩).2.2.2.2.2.2.2 (by decide)⟩⟩

/-- C10 as stated fails: the name `TXT` has no extension, yet the upload is not rejected;
it is decoded as plain text and becomes the selected document. -/
theorem upload_no_extension_accepted :
    '.'.toNat ∉ (utf16 "TXT") ∧
      handleFileUpload (fragmentEngine unicodeExcerpt) scenarioExtractors (initialState none)
        (some ⟨utf16 "TXT", []⟩) =
        .ok ({ files := [⟨utf16 "TXT", utf16 "a a a b"⟩],
               selectedFile := some ⟨utf16 "TXT", utf16 "a a a b"⟩,
               fileText := utf16 "a a a b", searchQuery := [], matchList := [],
               matchIndex := 0,
               recentUploads := some [⟨utf16 "TXT", utf16 "a a a b"⟩] }, none) :=
  ⟨by decide, by rfl⟩

/-! ## Literal queries -/

theorem canonicalize_ascii (upper : Nat → Nat) (a b : Nat) (ha : a < 128) :
    canonicalize upper a = canonicalize upper b ↔ asciiLower a = asciiLower b := by
  unfold canonicalize asciiUpper asciiLower
  rw [if_pos ha]
  by_cases hb : b < 128
  · rw [if_pos hb]
    split <;> split <;> split <;> split <;> omega
  · rw [if_neg hb]
    simp only
    generalize upper b = u
    split <;> split <;> split <;> split <;> omega

theorem tokenOf_literal (c : Nat) (h : c ∉ syntaxChars) : tokenOf c = .ok (.chr c) := by
  simp only [syntaxChars, List.mem_cons, not_or] at h
  obtain ⟨h1, h2, h3, h4⟩ := h
  unfold tokenOf
  rw [if_neg h1, if_neg h2, if_neg h3, if_neg h4]

theorem tokenize_literal (query : Str) (h : LiteralQuery query) :
    tokenize query = .ok (query.map Tok.chr) := by
  induction query with
  | nil => rfl
  | cons c cs ih =>
    have hc := h c (List.mem_cons_self _ _)
    have hcs : LiteralQuery cs := fun d hd => h d (List.mem_cons_of_mem _ hd)
    unfold tokenize
    rw [tokenOf_literal c hc, ih hcs]
    rfl

theorem balanced_map_chr (query : Str) (depth : Nat) :
    balanced (query.map Tok.chr) depth = (depth == 0) := by
  induction query with
  | nil => rfl
  | cons c cs ih => simpa [balanced] using ih

theorem consuming_map_chr (query : Str) : consuming (query.map Tok.chr) = query.map Tok.chr := by
  induction query with
  | nil => rfl
  | cons c cs ih => simp [consuming, ih]

theorem captureSpans_map_chr (query : Str) (pos : Nat) :
    captureSpans (query.map Tok.chr) pos = [] := by
  induction query generalizing pos with
  | nil => rfl
  | cons c cs ih => simp [captureSpans, ih]

theorem seqMatches_literal (T : CaseTable) (query w : Str) :
    seqMatches T.upper (query.map Tok.chr) w = startsWithSame (canonSame T) query w := by
  induction query generalizing w with
  | nil => rfl
  | cons c cs ih =>
    cases w with
    | nil => rfl
    | cons d ds =>
      simp only [List.map_cons, seqMatches, startsWithSame, tokMatches, canonSame, ih ds]

theorem fragmentCompile_literal (T : CaseTable) (query : Str) (h : LiteralQuery query) :
    fragmentCompile T.upper query = .ok (fragmentMatcher T.upper (query.map Tok.chr)) := by
  unfold fragmentCompile
  rw [tokenize_literal query h]
  simp [balanced_map_chr]

theorem fragmentMatcher_literal (T : CaseTable) (query S : Str) (i : Nat) :
    fragmentMatcher T.upper (query.map Tok.chr) S i =
      if i ≤ S.length ∧ startsWithSame (canonSame T) query (S.drop i) = true then
        some ⟨query.length, []⟩
      else none := by
  unfold fragmentMatcher
  simp only [consuming_map_chr, captureSpans_map_chr, seqMatches_literal,
    List.length_map, List.map_nil]

theorem startsWith_length (same : Nat → Nat → Bool) (query w : Str)
    (h : startsWithSame same query w = true) : query.length ≤ w.length := by
  induction query generalizing w with
  | nil => simp
  | cons c cs ih =>
    cases w with
    | nil => simp [startsWithSame] at h
    | cons d ds =>
      simp only [startsWithSame, Bool.and_eq_true] at h
      have := ih ds h.2
      simp only [List.length_cons]
      omega

theorem specScan_skip (same : Nat → Nat → Bool) (query : Str) (skip offset : Nat) (w : Str) :
    specScan same query skip offset w =
      specScan same query 0 (offset + skip) (w.drop skip) := by
  induction skip generalizing offset w with
  | zero => rfl
  | succ k ih =>
    cases w with
    | nil => simp [specScan]
    | cons c rest =>
      rw [specScan, ih, List.drop_succ_cons]
      congr 1
      omega

theorem startsWithSame_ascii (T : CaseTable) (query w : Str) (h : ∀ c ∈ query, c < 128) :
    startsWithSame (canonSame T) query w = startsWithSame asciiSame query w := by
  induction query generalizing w with
  | nil => rfl
  | cons c cs ih =>
    have hc := h c (List.mem_cons_self _ _)
    have hcs : ∀ d ∈ cs, d < 128 := fun d hd => h d (List.mem_cons_of_mem _ hd)
    cases w with
    | nil => rfl
    | cons d ds =>
      simp only [startsWithSame, ih ds hcs]
      congr 1
      have := canonicalize_ascii T.upper c d hc
      unfold canonSame asciiSame
      by_cases hu : canonicalize T.upper c = canonicalize T.upper d
      · simp [hu, this.mp hu]
      · have hl : ¬ asciiLower c = asciiLower d := fun hl => hu (this.mpr hl)
        simp [hu, hl]

theorem specScan_congr (s1 s2 : Nat → Nat → Bool) (query : Str)
    (h : ∀ w, startsWithSame s1 query w = startsWithSame s2 query w)
    (skip offset : Nat) (t : Str) :
    specScan s1 query skip offset t = specScan s2 query skip offset t := by
  induction t generalizing skip offset with
  | nil => simp [specScan]
  | cons c rest ih =>
    cases skip with
    | succ k => rw [specScan, specScan, ih]
    | zero =>
      rw [specScan, specScan, h (c :: rest), ih, ih]

theorem execLoop_some (m : Matcher) (S : Str) (n lastIndex i : Nat) (r : MatchState)
    (h : execLoop m S n lastIndex = some (i, r)) : m S i = some r := by
  induction n generalizing lastIndex with
  | zero => simp [execLoop] at h
  | succ n ih =>
    unfold execLoop at h
    split at h
    · rename_i r2 hm
      simp only [Option.some.injEq, Prod.mk.injEq] at h
      rw [← h.1, ← h.2]; exact hm
    · exact ih _ h

theorem matchAllLoop_mem (m : Matcher) (S : Str) (fuel lastIndex : Nat) (r : MatchRecord)
    (h : r ∈ matchAllLoop m S fuel lastIndex) :
    ∃ st, m S r.index = some st ∧ r.matched = substring S r.index (r.index + st.len) := by
  induction fuel generalizing lastIndex with
  | zero => simp [matchAllLoop] at h
  | succ fuel ih =>
    unfold matchAllLoop at h
    split at h
    · simp at h
    · rename_i j st hex
      simp only [List.mem_cons] at h
      rcases h with h | h
      · rw [h]
        exact ⟨st, execLoop_some m S _ _ _ _ hex, rfl⟩
      · exact ih _ h

theorem substring_length (S : Str) (i n : Nat) (h : n ≤ (S.drop i).length) :
    (substring S i (i + n)).length = n := by
  unfold substring
  rw [List.length_take, Nat.add_sub_cancel_left]
  exact Nat.min_eq_left h

theorem literal_exec_end (T : CaseTable) (query S : Str) (i : Nat)
    (hne : query ≠ []) (hi : S.length ≤ i) :
    RegExpBuiltinExec (fragmentMatcher T.upper (query.map Tok.chr)) S i = none := by
  have hstart : startsWithSame (canonSame T) query [] = false := by
    cases query with
    | nil => exact absurd rfl hne
    | cons c cs => rfl
  unfold RegExpBuiltinExec
  by_cases he : i = S.length
  · have h1 : S.length + 1 - i = 1 := by omega
    rw [h1]
    unfold execLoop
    rw [fragmentMatcher_literal T _ _ _, he, List.drop_length, hstart]
    simp [execLoop]
  · have h0 : S.length + 1 - i = 0 := by omega
    rw [h0]; rfl

theorem literal_scan (T : CaseTable) (query S : Str) (hne : query ≠ []) (n : Nat) :
    ∀ i fuel, S.length ≤ i + n → S.length + 1 - i ≤ fuel →
      (matchAllLoop (fragmentMatcher T.upper (query.map Tok.chr)) S fuel i).map (fun r => r.index) =
        specScan (canonSame T) query 0 i (S.drop i) := by
  have hpos : 0 < query.length := List.length_pos.mpr hne
  have hend : ∀ i fuel, S.length ≤ i →
      (matchAllLoop (fragmentMatcher T.upper (query.map Tok.chr)) S fuel i).map (fun r => r.index) =
        specScan (canonSame T) query 0 i (S.drop i) := by
    intro i fuel hi
    rw [List.drop_eq_nil_of_le hi]
    cases fuel with
    | zero => rfl
    | succ fuel =>
      unfold matchAllLoop
      rw [literal_exec_end T query S i hne hi]
      rfl
  induction n with
  | zero =>
    intro i fuel hi _
    exact hend i fuel (by omega)
  | succ n ih =>
    intro i fuel hi hfuel
    by_cases hlt : S.length ≤ i
    · exact hend i fuel hlt
    · have hlt2 : i < S.length := by omega
      obtain ⟨c, rest, hw⟩ : ∃ c rest, S.drop i = c :: rest := by
        cases hd : S.drop i with
        | nil =>
          have := List.drop_eq_nil_iff.mp hd
          omega
        | cons c rest => exact ⟨c, rest, rfl⟩
      have hrest : S.drop (i + 1) = rest := by
        rw [← List.drop_drop, hw]; rfl
      obtain ⟨f, hf⟩ : ∃ f, fuel = f + 1 := ⟨fuel - 1, by omega⟩
      subst hf
      have hcount : S.length + 1 - i = (S.length + 1 - (i + 1)) + 1 := by omega
      by_cases hp : startsWithSame (canonSame T) query (c :: rest) = true
      · have hm : fragmentMatcher T.upper (query.map Tok.chr) S i = some ⟨query.length, []⟩ := by
          rw [fragmentMatcher_literal T _ _ _, hw, if_pos ⟨by omega, hp⟩]
        have hex : RegExpBuiltinExec (fragmentMatcher T.upper (query.map Tok.chr)) S i =
            some (i, ⟨query.length, []⟩) := by
          unfold RegExpBuiltinExec
          rw [hcount]
          unfold execLoop
          rw [hm]
        have hlen := startsWith_length _ _ _ hp
        have hsub : substring S i (i + query.length) ≠ [] := by
          intro he
          have := substring_length S i query.length (by rw [hw]; exact hlen)
          rw [he] at this
          simp at this
          omega
        unfold matchAllLoop
        rw [hex]
        simp only [if_neg hsub, List.map_cons]
        have e1 : i + 1 + (query.length - 1) = i + query.length := by omega
        have e2 : rest.drop (query.length - 1) = S.drop (i + query.length) := by
          rw [← hrest, List.drop_drop]
          congr 1
        rw [ih (i + query.length) f (by omega) (by omega), hw, specScan, if_pos hp,
          specScan_skip (canonSame T) query (query.length - 1), e1, e2]
      · have hm : fragmentMatcher T.upper (query.map Tok.chr) S i = none := by
          rw [fragmentMatcher_literal T _ _ _, hw, if_neg (fun hc => hp hc.2)]
        have hex : RegExpBuiltinExec (fragmentMatcher T.upper (query.map Tok.chr)) S i =
            RegExpBuiltinExec (fragmentMatcher T.upper (query.map Tok.chr)) S (i + 1) := by
          unfold RegExpBuiltinExec
          rw [hcount]
          conv => lhs; unfold execLoop
          rw [hm]
        have hstep : matchAllLoop (fragmentMatcher T.upper (query.map Tok.chr)) S (f + 1) i =
            matchAllLoop (fragmentMatcher T.upper (query.map Tok.chr)) S (f + 1) (i + 1) := by
          conv => lhs; unfold matchAllLoop
          conv => rhs; unfold matchAllLoop
          rw [hex]
        rw [hstep, ih (i + 1) (f + 1) (by omega) (by omega), hw, hrest]
        conv => rhs; rw [specScan, if_neg hp]

theorem literal_search (T : CaseTable) (text query : Str) (h : LiteralQuery query)
    (hne : query ≠ []) :
    ∃ ms, searchMatches (fragmentEngine T) text query = .ok ms ∧
      ms.map (fun r => r.index) = specScan (canonSame T) query 0 0 text ∧
      ∀ r ∈ ms, r.matched.length = query.length := by
  refine ⟨matchAll (fragmentMatcher T.upper (query.map Tok.chr)) text, ?_, ?_, ?_⟩
  · unfold searchMatches
    rw [if_neg hne]
    show (match fragmentCompile T.upper query with
      | .error e => Except.error e
      | .ok regex => Except.ok (matchAll regex text)) = _
    rw [fragmentCompile_literal T query h]
  · exact literal_scan T query text hne text.length 0 (text.length + 1) (by omega) (by omega)
  · intro r hr
    obtain ⟨st, hst, hmatched⟩ := matchAllLoop_mem _ _ _ _ r hr
    rw [fragmentMatcher_literal T _ _ _] at hst
    split at hst
    · rename_i hc
      simp only [Option.some.injEq] at hst
      rw [hmatched, ← hst]
      exact substring_length _ _ _ (startsWith_length _ _ _ hc.2)
    · simp at hst

/-! ## The search step -/

/-- C2 (amended): for a query without pattern characters (letters, digits and spaces are
such) that has a character which is not white space, the search step returns exactly the
offsets of the left-to-right, non-overlapping scan of the specification in which two
code units are the same when they have the same canonical form under the `i` flag; every
match has the length of the query; for a query of ASCII characters this comparison is
equality up to the case of the letters `a`-`z`; and `HELLO` in `Hello world hello` gives
two matches, at offsets 0 and 12, of length 5. -/
theorem search_literal_query (T : CaseTable) (text query : Str) (s : AppState)
    (hq : LiteralQuery query) (hne : ∃ c ∈ query, isWhiteSpace c = false) :
    (∃ ms, searchMatches (fragmentEngine T) text query = .ok ms ∧
      ms.map (fun r => r.index) = specScan (canonSame T) query 0 0 text ∧
      ∀ r ∈ ms, r.matched.length = query.length) ∧
    searchEffect (fragmentEngine T) { s with fileText := text, searchQuery := query } =
      .ok { s with fileText := text, searchQuery := query,
                   matchList := specScan (canonSame T) query 0 0 text, matchIndex := 0 } ∧
    ((∀ c ∈ query, c < 128) →
      specScan (canonSame T) query 0 0 text = specScan asciiSame query 0 0 text) ∧
    searchMatches (fragmentEngine T) (utf16 "Hello world hello") (utf16 "HELLO") =
      .ok [⟨0, utf16 "Hello"⟩, ⟨12, utf16 "hello"⟩] := by
  have hnil : query ≠ [] := by
    obtain ⟨c, hc, _⟩ := hne
    intro h0
    rw [h0] at hc
    exact absurd hc (List.not_mem_nil c)
  obtain ⟨ms, h1, h2, h3⟩ := literal_search T text query hq hnil
  refine ⟨⟨ms, h1, h2, h3⟩, ?_, ?_, by rfl⟩
  · rw [searchEffect_eq]
    show Except.map _ (searchMatches (fragmentEngine T) text query) = _
    rw [h1]
    show Except.ok _ = Except.ok _
    rw [← h2]
  · intro hascii
    exact specScan_congr _ _ query (fun w => startsWithSame_ascii T query w hascii) 0 0 text

theorem search_literal_query_witness :
    LiteralQuery [0xE9] ∧ (∃ c ∈ [0xE9], isWhiteSpace c = false) ∧
      searchEffect (fragmentEngine unicodeExcerpt)
        { initialState none with fileText := [0xC9, 0x74, 0xE9], searchQuery := [0xE9] } =
        .ok { initialState none with fileText := [0xC9, 0x74, 0xE9], searchQuery := [0xE9],
                                     matchList := specScan (canonSame unicodeExcerpt) [0xE9]
                                       0 0 [0xC9, 0x74, 0xE9],
                                     matchIndex := 0 } ∧
      specScan (canonSame unicodeExcerpt) [0xE9] 0 0 [0xC9, 0x74, 0xE9] = [0, 2] :=
  ⟨by decide, ⟨0xE9, by decide, by decide⟩,
    (search_literal_query unicodeExcerpt [0xC9, 0x74, 0xE9] [0xE9] (initialState none)
      (by decide) ⟨0xE9, by decide, by decide⟩).2.1, by decide⟩

/-- C2 as stated fails: the text is the single code unit U+212A KELVIN SIGN and the query
is `k`. The two are the same ignoring case in the sense of the code itself (their
`toLowerCase()` is equal), so the case-insensitive scan has an occurrence at offset 0,
but the search step returns no match. -/
theorem search_misses_kelvin_sign :
    LiteralQuery (utf16 "k") ∧ (∃ c ∈ utf16 "k", isWhiteSpace c = false) ∧
      toLowerCase (fragmentEngine unicodeExcerpt) [0x212A] =
        toLowerCase (fragmentEngine unicodeExcerpt) (utf16 "k") ∧
      specScan (lowerSame (fragmentEngine unicodeExcerpt)) (utf16 "k") 0 0 [0x212A] = [0] ∧
      searchMatches (fragmentEngine unicodeExcerpt) [0x212A] (utf16 "k") = .ok [] ∧
      searchEffect (fragmentEngine unicodeExcerpt)
        { initialState none with fileText := [0x212A], searchQuery := utf16 "k" } =
        .ok { initialState none with fileText := [0x212A], searchQuery := utf16 "k",
                                     matchList := [], matchIndex := 0 } :=
  ⟨by decide, ⟨'k'.toNat, by decide, by decide⟩, by decide, by decide, by rfl, by rfl⟩

/-- C3 as stated fails: the query of three spaces is white space only, yet on the text
`a   b` the search step returns one match, at offset 1. -/
theorem search_whitespace_query :
    (∀ c ∈ utf16 "   ", isWhiteSpace c = true) ∧
      searchMatches (fragmentEngine unicodeExcerpt) (utf16 "a   b") (utf16 "   ") =
        .ok [⟨1, utf16 "   "⟩] ∧
      searchEffect (fragmentEngine unicodeExcerpt)
        { initialState none with fileText := utf16 "a   b", searchQuery := utf16 "   " } =
        .ok { initialState none with fileText := utf16 "a   b", searchQuery := utf16 "   ",
                                     matchList := [1], matchIndex := 0 } :=
  ⟨by decide, by rfl, by rfl⟩

/-- C3 (amended): on the empty query the search step returns the empty match set, on
every platform; a query of one or more spaces is not empty and is searched as a
literal. -/
theorem search_empty_query (P : Platform) (T : CaseTable) (text : Str) (s : AppState)
    (n : Nat) :
    searchMatches P text [] = .ok [] ∧
    searchEffect P { s with searchQuery := [] } =
      .ok { s with searchQuery := [], matchList := [], matchIndex := 0 } ∧
    (∃ ms, searchMatches (fragmentEngine T) text (List.replicate (n + 1) ' '.toNat) = .ok ms ∧
      ms.map (fun r => r.index) =
        specScan asciiSame (List.replicate (n + 1) ' '.toNat) 0 0 text) := by
  refine ⟨rfl, rfl, ?_⟩
  have hq : LiteralQuery (List.replicate (n + 1) ' '.toNat) := by
    intro c hc
    rw [List.eq_of_mem_replicate hc]
    decide
  have hascii : ∀ c ∈ List.replicate (n + 1) ' '.toNat, c < 128 := by
    intro c hc
    rw [List.eq_of_mem_replicate hc]
    decide
  have hne : List.replicate (n + 1) ' '.toNat ≠ [] := by simp [List.replicate_succ]
  obtain ⟨ms, h1, h2, _⟩ := literal_search T text _ hq hne
  refine ⟨ms, h1, ?_⟩
  rw [h2]
  exact specScan_congr _ _ _ (fun w => startsWithSame_ascii T _ w hascii) 0 0 text

/-! ## Queries with pattern characters -/

/-- C4 at the query `(`: the search effect and `highlightText` both raise a
`SyntaxError`. -/
theorem unbalanced_query_raises :
    searchEffect (fragmentEngine unicodeExcerpt)
      { initialState none with fileText := utf16 "abc", searchQuery := utf16 "(" } =
      .error .syntaxError ∧
    highlightText (fragmentEngine unicodeExcerpt) (utf16 "abc") (utf16 "(") 0 =
      .error .syntaxError :=
  ⟨by rfl, by rfl⟩

/-- C1 at the text `a` and the query `(a)`: `highlightText` returns four segments whose
texts concatenate to `aa`, not to `a`. -/
theorem group_query_duplicates :
    highlightText (fragmentEngine unicodeExcerpt) (utf16 "a") (utf16 "(a)") 0 =
      .ok (.array [.text [], .text (utf16 "a"), .text (utf16 "a"), .text []]) ∧
    (Rendered.array [.text [], .text (utf16 "a"), .text (utf16 "a"), .text []]).concat =
      utf16 "aa" ∧
    utf16 "aa" ≠ utf16 "a" :=
  ⟨by rfl, by rfl, by decide⟩

/-- C5 at the text `ab`, the query `.` and the cursor `0`: the match set has two matches
and `highlightText` has no highlighted segment. -/
theorem dot_query_no_marks :
    searchMatches (fragmentEngine unicodeExcerpt) (utf16 "ab") (utf16 ".") =
      .ok [⟨0, utf16 "a"⟩, ⟨1, utf16 "b"⟩] ∧
    highlightText (fragmentEngine unicodeExcerpt) (utf16 "ab") (utf16 ".") 0 =
      .ok (.array [.text [], .text (utf16 "a"), .text [], .text (utf16 "b"), .text []]) ∧
    (Rendered.array [.text [], .text (utf16 "a"), .text [], .text (utf16 "b"),
      .text []]).marks = [] :=
  ⟨by rfl, by rfl, by rfl⟩

/-! ## Splitting and highlighting on literal queries -/

/-- Fuel adequacy for `splitLoop`: once the fuel covers twice the positions left (plus one
when a piece is pending), more fuel does not change the array. -/
theorem splitLoop_fuel (m : Matcher) (S : Str) (fuel p q k : Nat)
    (h : 2 * (S.length - q) + (if p = q then 0 else 1) ≤ fuel) :
    splitLoop m S (fuel + k) p q = splitLoop m S fuel p q := by
  induction fuel generalizing p q with
  | zero =>
    have hq : ¬ q < S.length := by
      split at h <;> omega
    cases k with
    | zero => rfl
    | succ k =>
      simp only [Nat.zero_add]
      unfold splitLoop
      rw [if_neg hq]
  | succ fuel ih =>
    rw [Nat.add_right_comm]
    unfold splitLoop
    by_cases hq : q < S.length
    · have hadv : 2 * (S.length - (q + 1)) + (if p = q + 1 then 0 else 1) ≤ fuel := by
        split at h <;> split <;> omega
      simp only [if_pos hq]
      split
      · exact ih _ _ hadv
      · rename_i r hm
        split
        · exact ih _ _ hadv
        · rename_i he
          congr 2
          apply ih
          rw [if_pos rfl]
          by_cases hpq : p = q
          · rw [if_pos hpq] at h
            rw [hpq] at he
            have : q < min (q + r.len) S.length := by
              rcases Nat.lt_or_ge q (min (q + r.len) S.length) with h1 | h1
              · exact h1
              · exfalso
                apply he
                have : q ≤ min (q + r.len) S.length := by
                  rw [Nat.le_min]; omega
                omega
            omega
          · rw [if_neg hpq] at h
            have : q ≤ min (q + r.len) S.length := by
              rw [Nat.le_min]; omega
            omega
    · simp only [if_neg hq]

theorem substring_append_drop (S : Str) (p q : Nat) (hpq : p ≤ q) :
    substring S p q ++ S.drop q = S.drop p := by
  unfold substring
  have : S.drop q = (S.drop p).drop (q - p) := by
    rw [List.drop_drop]
    congr 1
    omega
  rw [this, List.take_append_drop]

theorem splitLoop_parts (m : Matcher) (S : Str) (hm : WholeCapture m S) (fuel : Nat) :
    ∀ p q, p ≤ q → ∃ parts : List Str,
      splitLoop m S fuel p q = parts.map some ∧ parts.flatten = S.drop p := by
  have hlast : ∀ p, ∃ parts : List Str,
      [some (substring S p S.length)] = parts.map some ∧ parts.flatten = S.drop p := by
    intro p
    refine ⟨[substring S p S.length], rfl, ?_⟩
    simp only [List.flatten_cons, List.flatten_nil, List.append_nil]
    unfold substring
    rw [List.take_of_length_le]
    rw [List.length_drop]
  induction fuel with
  | zero =>
    intro p q _
    exact hlast p
  | succ fuel ih =>
    intro p q hpq
    unfold splitLoop
    by_cases hq : q < S.length
    · simp only [if_pos hq]
      split
      · exact ih p (q + 1) (by omega)
      · rename_i r hr
        obtain ⟨hend, hcap⟩ := hm q r hr
        have he : min (q + r.len) S.length = q + r.len := Nat.min_eq_left hend
        simp only [he]
        split
        · exact ih p (q + 1) (by omega)
        · obtain ⟨parts, hparts, hflat⟩ := ih (q + r.len) (q + r.len) (le_refl _)
          refine ⟨substring S p q :: substring S q (q + r.len) :: parts, ?_, ?_⟩
          · rw [hcap, hparts]
            rfl
          · simp only [List.flatten_cons]
            rw [hflat, substring_append_drop S q (q + r.len) (by omega),
              substring_append_drop S p q hpq]
    · simp only [if_neg hq]
      exact hlast p

theorem mapParts_some (P : Platform) (query : Str) (activeIndex : Int) (parts : List Str) :
    ∀ idx i, ∃ nodes, mapParts P query activeIndex (parts.map some) idx i = .ok nodes ∧
      nodes.map Node.content = parts := by
  induction parts with
  | nil => intro idx i; exact ⟨[], rfl, rfl⟩
  | cons part rest ih =>
    intro idx i
    simp only [List.map_cons]
    unfold mapParts
    split
    · obtain ⟨nodes, hn, hc⟩ := ih (idx + 1) (i + 1)
      rw [hn]
      exact ⟨_, rfl, by simp [Node.content, hc]⟩
    · obtain ⟨nodes, hn, hc⟩ := ih (idx + 1) i
      rw [hn]
      exact ⟨_, rfl, by simp [Node.content, hc]⟩

/-- On a platform that compiles `(query)` to a pattern whose only group is the whole
match, `highlightText` returns segments that concatenate to the text. -/
theorem highlightText_lossless (P : Platform) (text query : Str) (activeIndex : Int)
    (m : Matcher) (hc : P.compile ('('.toNat :: (query ++ [')'.toNat])) = .ok m)
    (hm : WholeCapture m text) :
    ∃ r, highlightText P text query activeIndex = .ok r ∧ r.concat = text := by
  unfold highlightText
  by_cases hq : query = []
  · rw [if_pos hq]
    exact ⟨_, rfl, by simp [Rendered.concat, Rendered.segments, Node.content]⟩
  · rw [if_neg hq, hc]
    have hparts : ∃ parts : List Str, split m text = parts.map some ∧ parts.flatten = text := by
      unfold split
      by_cases h0 : text.length = 0
      · rw [if_pos h0]
        have ht : text = [] := List.length_eq_zero.mp h0
        split
        · exact ⟨[], rfl, by rw [ht]; rfl⟩
        · exact ⟨[text], rfl, by simp⟩
      · rw [if_neg h0]
        obtain ⟨parts, h1, h2⟩ := splitLoop_parts m text hm _ 0 0 (le_refl _)
        exact ⟨parts, h1, by rw [h2]; rfl⟩
    obtain ⟨parts, h1, h2⟩ := hparts
    obtain ⟨nodes, hn, hcont⟩ := mapParts_some P query activeIndex parts 0 (-1)
    simp only [h1, hn]
    exact ⟨_, rfl, by simp [Rendered.concat, Rendered.segments, hcont, h2]⟩

theorem tokenize_literal_group (query : Str) (h : LiteralQuery query) :
    tokenize (query ++ [')'.toNat]) = .ok (query.map Tok.chr ++ [Tok.rparen]) := by
  induction query with
  | nil => rfl
  | cons c cs ih =>
    have hc := h c (List.mem_cons_self _ _)
    have hcs : LiteralQuery cs := fun d hd => h d (List.mem_cons_of_mem _ hd)
    rw [List.cons_append]
    unfold tokenize
    rw [tokenOf_literal c hc, ih hcs]
    rfl

theorem balanced_literal_group (query : Str) (depth : Nat) :
    balanced (query.map Tok.chr ++ [Tok.rparen]) (depth + 1) = (depth == 0) := by
  induction query with
  | nil => rfl
  | cons c cs ih => simpa [balanced] using ih

theorem consuming_literal_group (query : Str) :
    consuming (query.map Tok.chr ++ [Tok.rparen]) = query.map Tok.chr := by
  induction query with
  | nil => rfl
  | cons c cs ih => simp [consuming, ih]

theorem groupLen_literal_group (query : Str) :
    groupLen (query.map Tok.chr ++ [Tok.rparen]) 0 = query.length := by
  induction query with
  | nil => rfl
  | cons c cs ih => simp [groupLen, ih]

theorem captureSpans_literal_group (query : Str) (pos : Nat) :
    captureSpans (query.map Tok.chr ++ [Tok.rparen]) pos = [] := by
  induction query generalizing pos with
  | nil => rfl
  | cons c cs ih => simp [captureSpans, ih]

theorem fragmentCompile_literal_group (T : CaseTable) (query : Str) (h : LiteralQuery query) :
    fragmentCompile T.upper ('('.toNat :: (query ++ [')'.toNat])) =
      .ok (fragmentMatcher T.upper (Tok.lparen :: (query.map Tok.chr ++ [Tok.rparen]))) := by
  unfold fragmentCompile
  have ht : tokenize ('('.toNat :: (query ++ [')'.toNat])) =
      .ok (Tok.lparen :: (query.map Tok.chr ++ [Tok.rparen])) := by
    unfold tokenize
    rw [tokenize_literal_group query h]
    rfl
  rw [ht]
  simp [balanced, balanced_literal_group]

theorem wholeCapture_literal_group (T : CaseTable) (query text : Str) :
    WholeCapture (fragmentMatcher T.upper (Tok.lparen :: (query.map Tok.chr ++ [Tok.rparen]))) text := by
  intro q r hr
  unfold fragmentMatcher at hr
  simp only [consuming, consuming_literal_group, captureSpans, captureSpans_literal_group,
    groupLen_literal_group, seqMatches_literal, List.length_map, List.map_cons,
    List.map_nil] at hr
  split at hr
  · rename_i hc
    simp only [Option.some.injEq] at hr
    rw [← hr]
    have hlen := startsWith_length _ _ _ hc.2
    rw [List.length_drop] at hlen
    refine ⟨by simp only; omega, ?_⟩
    simp [substring]
  · simp at hr

/-- On a query without pattern characters (letters, digits and spaces are such)
`highlightText` returns, for every text and every cursor, segments whose texts
concatenate to the text. -/
theorem highlightText_lossless_literal (T : CaseTable) (text query : Str)
    (activeIndex : Int) (h : LiteralQuery query) :
    ∃ r, highlightText (fragmentEngine T) text query activeIndex = .ok r ∧
      r.concat = text :=
  highlightText_lossless (fragmentEngine T) text query activeIndex _
    (fragmentCompile_literal_group T query h) (wholeCapture_literal_group T query text)

end QuickRead
